import Mathlib

/-!
Verification of the Bitcask store core from `src/script.js`.

The JavaScript code defines three classes:
* `LogEntry` — a record of the append-only log (`timestamp`, `key`, `value`,
  `isTombstone`);
* `KeyDirEntry` — an index entry (`fileId`, `valueSize`, `valuePos`,
  `timestamp`);
* `BitcaskStore` — the store, holding `log` (a JS array of `LogEntry`) and
  `keyDir` (a JS `Map` from string keys to `KeyDirEntry`), with methods
  `put`, `get`, `delete`.

The embedding below translates these structures and methods.  JS string
values are modelled by `Bitcask.Value` (a put value in this program is a
string or `null`); the wall-clock reading `new Date().toISOString()` is
modelled by an explicit timestamp argument to each mutating operation, and
the JS `Map` by an association list with the `Map` operations `set`,
`get`, `has`, `delete` defined below.
-/

set_option autoImplicit false

namespace Bitcask

/-- A JS value as it occurs in this program: `put` is called with a string
(from the UI) or, at the public class interface, possibly `null`; `get`
returns a stored value or the JS `null` used for "not found". -/
inductive Value where
  | null
  | str (s : String)
  deriving DecidableEq, Repr

/-- Embedding of class `LogEntry`: `timestamp`, `key`, `value`,
`isTombstone` as assigned by the constructor. -/
structure LogEntry where
  timestamp : String
  key : String
  value : Value
  isTombstone : Bool
  deriving DecidableEq, Repr

/-- Embedding of class `KeyDirEntry`: `fileId`, `valueSize`, `valuePos`,
`timestamp`. -/
structure KeyDirEntry where
  fileId : String
  valueSize : Nat
  valuePos : Nat
  timestamp : String
  deriving DecidableEq, Repr

/-- The JS `Map<string, KeyDirEntry>` of `BitcaskStore.keyDir`, modelled as
an insertion-ordered association list (as a JS `Map` is). -/
abbrev KeyDirMap : Type := List (String × KeyDirEntry)

/-- JS `Map.prototype.get`: the value stored under `k`, if present. -/
def mapGet (m : KeyDirMap) (k : String) : Option KeyDirEntry :=
  match m with
  | [] => none
  | (k2, v) :: rest => if k2 = k then some v else mapGet rest k

/-- JS `Map.prototype.has`. -/
def mapHas (m : KeyDirMap) (k : String) : Bool :=
  match m with
  | [] => false
  | (k2, _) :: rest => if k2 = k then true else mapHas rest k

/-- JS `Map.prototype.set`: overwrites the entry for `k` in place if one
exists, otherwise appends a new entry at the end (insertion order). -/
def mapSet (m : KeyDirMap) (k : String) (v : KeyDirEntry) : KeyDirMap :=
  match m with
  | [] => [(k, v)]
  | (k2, v2) :: rest =>
      if k2 = k then (k, v) :: rest else (k2, v2) :: mapSet rest k v

/-- JS `Map.prototype.delete`: removes the entry for `k` if present. -/
def mapDelete (m : KeyDirMap) (k : String) : KeyDirMap :=
  match m with
  | [] => []
  | (k2, v2) :: rest =>
      if k2 = k then rest else (k2, v2) :: mapDelete rest k

/-- One hexadecimal digit, lower case, as produced by JS `\uXXXX` escapes. -/
def hexDigit (n : Nat) : Char :=
  if n < 10 then Char.ofNat (48 + n) else Char.ofNat (87 + n)

/-- Four-digit hexadecimal rendering of a code point, for `\uXXXX`. -/
def hex4 (n : Nat) : String :=
  String.mk [hexDigit (n / 4096 % 16), hexDigit (n / 256 % 16),
             hexDigit (n / 16 % 16), hexDigit (n % 16)]

/-- `JSON.stringify` escaping of a single character inside a JS string
literal: `"` and `\` are backslash-escaped, the named control characters
get two-character escapes, other control characters get `\uXXXX`, and
every other character is emitted unchanged. -/
def escChar (c : Char) : String :=
  if c = Char.ofNat 34 then String.mk [Char.ofNat 92, Char.ofNat 34]
  else if c = Char.ofNat 92 then String.mk [Char.ofNat 92, Char.ofNat 92]
  else if c = Char.ofNat 8 then String.mk [Char.ofNat 92, Char.ofNat 98]
  else if c = Char.ofNat 9 then String.mk [Char.ofNat 92, Char.ofNat 116]
  else if c = Char.ofNat 10 then String.mk [Char.ofNat 92, Char.ofNat 110]
  else if c = Char.ofNat 12 then String.mk [Char.ofNat 92, Char.ofNat 102]
  else if c = Char.ofNat 13 then String.mk [Char.ofNat 92, Char.ofNat 114]
  else if c.val < 32 then String.mk (Char.ofNat 92 :: Char.ofNat 117 :: (hex4 c.toNat).data)
  else String.mk [c]

/-- `JSON.stringify` applied to a value of this program: `null` serializes
to the four characters `null`, a string to a double-quoted, escaped JS
string literal. -/
def jsonStringify (v : Value) : String :=
  match v with
  | Value.null => String.mk [Char.ofNat 110, Char.ofNat 117, Char.ofNat 108, Char.ofNat 108]
  | Value.str s =>
      String.mk [Char.ofNat 34] ++ String.join (s.data.map escChar) ++ String.mk [Char.ofNat 34]

/-- JS `String.prototype.length`: the number of UTF-16 code units, i.e.
characters above `U+FFFF` count twice. -/
def jsStrLen (s : String) : Nat :=
  s.data.foldl (fun acc c => acc + (if 65536 ≤ c.toNat then 2 else 1)) 0

/-- Embedding of class `BitcaskStore`: `log` (the array acting as "disk")
and `keyDir` (the map acting as "memory"). -/
structure BitcaskStore where
  log : List LogEntry
  keyDir : KeyDirMap
  deriving DecidableEq, Repr

/-- The `BitcaskStore` constructor: empty log, empty keyDir. -/
def BitcaskStore.empty : BitcaskStore :=
  { log := [], keyDir := [] }

/-- Embedding of `BitcaskStore.put(key, value)`: build a `LogEntry` with
`isTombstone = false` and the current timestamp `ts`, push it onto the
log, compute `offset = log.length - 1`, then `keyDir.set(key, ...)` with a
`KeyDirEntry` carrying `"active.data"`, `JSON.stringify(value).length`,
the offset, and the entry's timestamp. -/
def BitcaskStore.put (s : BitcaskStore) (key : String) (value : Value)
    (ts : String) : BitcaskStore :=
  let entry : LogEntry := { timestamp := ts, key := key, value := value, isTombstone := false }
  let log2 := s.log ++ [entry]
  let offset := log2.length - 1
  let keyDirEntry : KeyDirEntry :=
    { fileId := "active.data"
      valueSize := jsStrLen (jsonStringify value)
      valuePos := offset
      timestamp := entry.timestamp }
  { log := log2, keyDir := mapSet s.keyDir key keyDirEntry }

/-- The JS array read `this.log[meta.valuePos]` inside `get`: a JS array
indexed at a negative position or at a position at or beyond its length
yields `undefined`, modelled by `none`. -/
def readAt (log : List LogEntry) (pos : Int) : Option LogEntry :=
  if 0 ≤ pos then log[pos.toNat]? else none

/-- Embedding of `BitcaskStore.get(key)`.  The first component is the
result: `some Value.null` when the keyDir has no entry (the JS `return
null`), `some entry.value` after a successful positional read, and `none`
for the crash (`TypeError`) that the JS code would hit dereferencing
`undefined` if the positional read fell out of range.  The second
component is the store after the call. -/
def BitcaskStore.get (s : BitcaskStore) (key : String) :
    Option Value × BitcaskStore :=
  if mapHas s.keyDir key = false then (some Value.null, s)
  else
    match mapGet s.keyDir key with
    | some meta =>
        match readAt s.log (meta.valuePos : Int) with
        | some entry => (some entry.value, s)
        | none => (none, s)
    | none => (none, s)

/-- Embedding of `BitcaskStore.delete(key)`: push a `LogEntry` with value
`"DELETE_TOMBSTONE"` and `isTombstone = true`, then `keyDir.delete(key)`. -/
def BitcaskStore.delete (s : BitcaskStore) (key : String) (ts : String) :
    BitcaskStore :=
  let entry : LogEntry :=
    { timestamp := ts, key := key, value := Value.str "DELETE_TOMBSTONE", isTombstone := true }
  { log := s.log ++ [entry], keyDir := mapDelete s.keyDir key }

/-- A mutating operation on the store, with its timestamp argument (the
clock reading at the time of the call). -/
inductive Op where
  | putOp (key : String) (value : Value) (ts : String)
  | delOp (key : String) (ts : String)
  deriving DecidableEq, Repr

/-- Apply one operation. -/
def applyOp (s : BitcaskStore) : Op → BitcaskStore
  | Op.putOp k v ts => s.put k v ts
  | Op.delOp k ts => s.delete k ts

/-- Run a sequence of operations from the empty store. -/
def runOps (ops : List Op) : BitcaskStore :=
  ops.foldl applyOp BitcaskStore.empty

/-- A store state is reachable when some sequence of `put`/`delete`
operations produces it from the empty store. -/
def Reachable (s : BitcaskStore) : Prop :=
  ∃ ops : List Op, runOps ops = s

/-- Index (position) of the most recent record for key `k` in the log, if
any record for `k` exists. -/
def lastIdxFor (log : List LogEntry) (k : String) : Option Nat :=
  match log with
  | [] => none
  | e :: rest =>
      match lastIdxFor rest k with
      | some i => some (i + 1)
      | none => if e.key = k then some 0 else none

/-- The most recent record for key `k` in the log, if any. -/
def lastRecordFor (log : List LogEntry) (k : String) : Option LogEntry :=
  (lastIdxFor log k).bind (fun i => log[i]?)

/-- A JS `Map` holds at most one entry per key; an association list models
a `Map` only when its keys are pairwise distinct. -/
def DistinctKeys (m : KeyDirMap) : Prop :=
  (m.map Prod.fst).Nodup

instance (m : KeyDirMap) : Decidable (DistinctKeys m) := by
  unfold DistinctKeys
  infer_instance

/-- The cross-component invariant maintained by the store: keyDir keys are
distinct (it is a JS `Map`), a present index entry points at the most
recent record for its key, which is live; an absent key's most recent
record, if any, is a tombstone. -/
def StoreInv (s : BitcaskStore) : Prop :=
  DistinctKeys s.keyDir ∧
  ∀ k : String,
    (∀ e, mapGet s.keyDir k = some e →
        lastIdxFor s.log k = some e.valuePos ∧
        ∃ rec, s.log[e.valuePos]? = some rec ∧
          rec.isTombstone = false ∧ rec.key = k) ∧
    (mapGet s.keyDir k = none →
        ∀ i rec, lastIdxFor s.log k = some i → s.log[i]? = some rec →
          rec.isTombstone = true)

theorem mapGet_set_self (m : KeyDirMap) (k : String) (v : KeyDirEntry) :
    mapGet (mapSet m k v) k = some v := by
  induction m with
  | nil => simp [mapSet, mapGet]
  | cons p rest ih =>
      obtain ⟨k2, v2⟩ := p
      by_cases h : k2 = k <;> simp [mapSet, mapGet, h, ih]

theorem mapGet_set_ne (m : KeyDirMap) (k k2 : String) (v : KeyDirEntry)
    (h : k2 ≠ k) : mapGet (mapSet m k v) k2 = mapGet m k2 := by
  have hne : ¬ k = k2 := fun hh => h hh.symm
  induction m with
  | nil => simp [mapSet, mapGet, hne]
  | cons p rest ih =>
      obtain ⟨k3, v3⟩ := p
      by_cases h3 : k3 = k
      · subst h3
        have h32 : ¬ k3 = k2 := fun hh => h hh.symm
        simp [mapSet, mapGet, h32]
      · by_cases h4 : k3 = k2 <;> simp [mapSet, mapGet, h, hne, h3, h4, ih]

theorem mapHas_iff_get (m : KeyDirMap) (k : String) :
    mapHas m k = true ↔ (mapGet m k).isSome = true := by
  induction m with
  | nil => simp [mapHas, mapGet]
  | cons p rest ih =>
      obtain ⟨k2, v2⟩ := p
      by_cases h : k2 = k <;> simp [mapHas, mapGet, h, ih]

theorem mapGet_delete_ne (m : KeyDirMap) (k k2 : String) (h : k2 ≠ k) :
    mapGet (mapDelete m k) k2 = mapGet m k2 := by
  induction m with
  | nil => simp [mapDelete]
  | cons p rest ih =>
      obtain ⟨k3, v3⟩ := p
      by_cases h3 : k3 = k
      · subst h3
        have h32 : ¬ k3 = k2 := fun hh => h hh.symm
        simp [mapDelete, mapGet, h32]
      · by_cases h4 : k3 = k2 <;> simp [mapDelete, mapGet, h, h3, h4, ih]

theorem mapGet_none_of_not_mem (m : KeyDirMap) (k : String)
    (h : k ∉ m.map Prod.fst) : mapGet m k = none := by
  induction m with
  | nil => simp [mapGet]
  | cons p rest ih =>
      obtain ⟨k2, v2⟩ := p
      simp only [List.map_cons, List.mem_cons] at h
      push_neg at h
      have h21 : ¬ k2 = k := fun hh => h.1 hh.symm
      simp [mapGet, h21, ih h.2]

theorem mapGet_delete_self (m : KeyDirMap) (k : String)
    (h : DistinctKeys m) : mapGet (mapDelete m k) k = none := by
  induction m with
  | nil => simp [mapDelete, mapGet]
  | cons p rest ih =>
      obtain ⟨k2, v2⟩ := p
      unfold DistinctKeys at h
      simp only [List.map_cons, List.nodup_cons] at h
      by_cases h2 : k2 = k
      · subst h2
        simpa [mapDelete] using mapGet_none_of_not_mem rest k2 h.1
      · simp [mapDelete, mapGet, h2, ih h.2]

theorem keys_mapSet (m : KeyDirMap) (k : String) (v : KeyDirEntry) :
    (mapSet m k v).map Prod.fst =
      if k ∈ m.map Prod.fst then m.map Prod.fst
      else m.map Prod.fst ++ [k] := by
  induction m with
  | nil => simp [mapSet]
  | cons p rest ih =>
      obtain ⟨k3, v3⟩ := p
      by_cases h3 : k3 = k
      · subst h3
        simp [mapSet]
      · have h3s : ¬ k = k3 := fun hh => h3 hh.symm
        by_cases hm : k ∈ rest.map Prod.fst <;>
          simp [mapSet, h3, h3s, hm, ih]

theorem distinctKeys_set (m : KeyDirMap) (k : String) (v : KeyDirEntry)
    (h : DistinctKeys m) : DistinctKeys (mapSet m k v) := by
  unfold DistinctKeys at h ⊢
  rw [keys_mapSet]
  by_cases hm : k ∈ m.map Prod.fst
  · simpa [hm] using h
  · simp [hm, List.nodup_append, h]

theorem mapDelete_sublist (m : KeyDirMap) (k : String) :
    (mapDelete m k).Sublist m := by
  induction m with
  | nil => simp [mapDelete]
  | cons p rest ih =>
      obtain ⟨k2, v2⟩ := p
      by_cases h2 : k2 = k
      · simp only [mapDelete, if_pos h2]
        exact List.sublist_cons_self (k2, v2) rest
      · simpa [mapDelete, h2] using List.Sublist.cons₂ (k2, v2) ih

theorem distinctKeys_delete (m : KeyDirMap) (k : String)
    (h : DistinctKeys m) : DistinctKeys (mapDelete m k) :=
  List.Nodup.sublist (List.Sublist.map Prod.fst (mapDelete_sublist m k)) h

theorem lastIdxFor_append_same (log : List LogEntry) (e : LogEntry)
    (k : String) (h : e.key = k) :
    lastIdxFor (log ++ [e]) k = some log.length := by
  induction log with
  | nil => simp [lastIdxFor, h]
  | cons f rest ih => simp [lastIdxFor, ih]

theorem lastIdxFor_append_ne (log : List LogEntry) (e : LogEntry)
    (k : String) (h : ¬ e.key = k) :
    lastIdxFor (log ++ [e]) k = lastIdxFor log k := by
  induction log with
  | nil => simp [lastIdxFor, h]
  | cons f rest ih => simp [lastIdxFor, ih]

theorem lastIdxFor_lt_length (log : List LogEntry) (k : String) (i : Nat)
    (h : lastIdxFor log k = some i) : i < log.length := by
  induction log generalizing i with
  | nil => simp [lastIdxFor] at h
  | cons f rest ih =>
      unfold lastIdxFor at h
      cases hr : lastIdxFor rest k with
      | some j =>
          rw [hr] at h
          cases h
          exact Nat.succ_lt_succ (ih j hr)
      | none =>
          rw [hr] at h
          by_cases hf : f.key = k
          · rw [if_pos hf] at h
            cases h
            exact Nat.zero_lt_succ _
          · rw [if_neg hf] at h
            cases h

theorem lastIdxFor_key (log : List LogEntry) (k : String) (i : Nat)
    (h : lastIdxFor log k = some i) :
    ∃ rec, log[i]? = some rec ∧ rec.key = k := by
  induction log generalizing i with
  | nil => simp [lastIdxFor] at h
  | cons f rest ih =>
      unfold lastIdxFor at h
      cases hr : lastIdxFor rest k with
      | some j =>
          rw [hr] at h
          cases h
          simpa using ih j hr
      | none =>
          rw [hr] at h
          by_cases hf : f.key = k
          · rw [if_pos hf] at h
            cases h
            exact ⟨f, by simp, hf⟩
          · rw [if_neg hf] at h
            cases h

theorem put_log_eq (s : BitcaskStore) (k : String) (v : Value) (ts : String) :
    (s.put k v ts).log = s.log ++ [⟨ts, k, v, false⟩] := rfl

theorem put_keyDir_eq (s : BitcaskStore) (k : String) (v : Value) (ts : String) :
    (s.put k v ts).keyDir =
      mapSet s.keyDir k ⟨"active.data", jsStrLen (jsonStringify v), s.log.length, ts⟩ := by
  simp [BitcaskStore.put]

theorem delete_log_eq (s : BitcaskStore) (k : String) (ts : String) :
    (s.delete k ts).log = s.log ++ [⟨ts, k, Value.str "DELETE_TOMBSTONE", true⟩] := rfl

theorem delete_keyDir_eq (s : BitcaskStore) (k : String) (ts : String) :
    (s.delete k ts).keyDir = mapDelete s.keyDir k := rfl

theorem storeInv_empty : StoreInv BitcaskStore.empty := by
  refine ⟨by simp [DistinctKeys, BitcaskStore.empty], ?_⟩
  intro k
  constructor
  · intro e he
    simp [BitcaskStore.empty, mapGet] at he
  · intro _ i rec hi _
    simp [BitcaskStore.empty, lastIdxFor] at hi

theorem storeInv_put (s : BitcaskStore) (k : String) (v : Value) (ts : String)
    (h : StoreInv s) : StoreInv (s.put k v ts) := by
  obtain ⟨hd, hinv⟩ := h
  constructor
  · rw [put_keyDir_eq]
    exact distinctKeys_set _ _ _ hd
  · intro k2
    by_cases hk : k2 = k
    · subst hk
      constructor
      · intro e he
        rw [put_keyDir_eq, mapGet_set_self] at he
        cases he
        rw [put_log_eq]
        refine ⟨lastIdxFor_append_same _ _ _ rfl, ⟨ts, k2, v, false⟩, ?_, rfl, rfl⟩
        exact List.getElem?_concat_length _ _
      · intro hnone
        rw [put_keyDir_eq, mapGet_set_self] at hnone
        cases hnone
    · have hne : ¬ (⟨ts, k, v, false⟩ : LogEntry).key = k2 :=
        fun hh => hk (by simpa using hh.symm)
      constructor
      · intro e he
        rw [put_keyDir_eq, mapGet_set_ne _ _ _ _ hk] at he
        obtain ⟨h1, rec, h2, h3, h4⟩ := (hinv k2).1 e he
        rw [put_log_eq]
        refine ⟨by rw [lastIdxFor_append_ne _ _ _ hne]; exact h1, rec, ?_, h3, h4⟩
        rw [List.getElem?_append_left (lastIdxFor_lt_length _ _ _ h1)]
        exact h2
      · intro hnone i rec hi hrec
        rw [put_keyDir_eq, mapGet_set_ne _ _ _ _ hk] at hnone
        rw [put_log_eq, lastIdxFor_append_ne _ _ _ hne] at hi
        rw [put_log_eq, List.getElem?_append_left (lastIdxFor_lt_length _ _ _ hi)] at hrec
        exact (hinv k2).2 hnone i rec hi hrec

theorem storeInv_delete (s : BitcaskStore) (k : String) (ts : String)
    (h : StoreInv s) : StoreInv (s.delete k ts) := by
  obtain ⟨hd, hinv⟩ := h
  constructor
  · rw [delete_keyDir_eq]
    exact distinctKeys_delete _ _ hd
  · intro k2
    by_cases hk : k2 = k
    · subst hk
      constructor
      · intro e he
        rw [delete_keyDir_eq, mapGet_delete_self _ _ hd] at he
        cases he
      · intro _ i rec hi hrec
        rw [delete_log_eq, lastIdxFor_append_same _ _ _ rfl] at hi
        cases hi
        rw [delete_log_eq, List.getElem?_concat_length] at hrec
        cases hrec
        rfl
    · have hne : ¬ (⟨ts, k, Value.str "DELETE_TOMBSTONE", true⟩ : LogEntry).key = k2 :=
        fun hh => hk (by simpa using hh.symm)
      constructor
      · intro e he
        rw [delete_keyDir_eq, mapGet_delete_ne _ _ _ hk] at he
        obtain ⟨h1, rec, h2, h3, h4⟩ := (hinv k2).1 e he
        rw [delete_log_eq]
        refine ⟨by rw [lastIdxFor_append_ne _ _ _ hne]; exact h1, rec, ?_, h3, h4⟩
        rw [List.getElem?_append_left (lastIdxFor_lt_length _ _ _ h1)]
        exact h2
      · intro hnone i rec hi hrec
        rw [delete_keyDir_eq, mapGet_delete_ne _ _ _ hk] at hnone
        rw [delete_log_eq, lastIdxFor_append_ne _ _ _ hne] at hi
        rw [delete_log_eq, List.getElem?_append_left (lastIdxFor_lt_length _ _ _ hi)] at hrec
        exact (hinv k2).2 hnone i rec hi hrec

theorem storeInv_foldl (ops : List Op) :
    ∀ s : BitcaskStore, StoreInv s → StoreInv (ops.foldl applyOp s) := by
  induction ops with
  | nil => exact fun s h => h
  | cons op rest ih =>
      intro s h
      cases op with
      | putOp k v ts => exact ih _ (storeInv_put s k v ts h)
      | delOp k ts => exact ih _ (storeInv_delete s k ts h)

theorem storeInv_reachable (s : BitcaskStore) (h : Reachable s) : StoreInv s := by
  obtain ⟨ops, rfl⟩ := h
  exact storeInv_foldl ops _ storeInv_empty

theorem mapHas_set_self (m : KeyDirMap) (k : String) (v : KeyDirEntry) :
    mapHas (mapSet m k v) k = true :=
  (mapHas_iff_get _ _).2 (by rw [mapGet_set_self]; rfl)

theorem get_put_fst (s : BitcaskStore) (k : String) (v : Value) (ts : String) :
    ((s.put k v ts).get k).1 = some v := by
  have hg : mapGet (s.put k v ts).keyDir k =
      some ⟨"active.data", jsStrLen (jsonStringify v), s.log.length, ts⟩ := by
    rw [put_keyDir_eq, mapGet_set_self]
  have hh : mapHas (s.put k v ts).keyDir k = true := by
    rw [put_keyDir_eq]
    exact mapHas_set_self _ _ _
  have hr : readAt (s.put k v ts).log (s.log.length : Int) =
      some ⟨ts, k, v, false⟩ := by
    unfold readAt
    rw [if_pos (by positivity), put_log_eq]
    simp
  simp [BitcaskStore.get, hg, hh, hr]

theorem get_delete_fst (s : BitcaskStore) (k : String) (ts : String)
    (h : DistinctKeys s.keyDir) : ((s.delete k ts).get k).1 = some Value.null := by
  have hg : mapGet (s.delete k ts).keyDir k = none := by
    rw [delete_keyDir_eq]
    exact mapGet_delete_self _ _ h
  have hh : mapHas (s.delete k ts).keyDir k = false := by
    cases hcase : mapHas (s.delete k ts).keyDir k
    · rfl
    · have := (mapHas_iff_get _ _).1 hcase
      rw [hg] at this
      cases this
  simp [BitcaskStore.get, hh]

/-- C2 (Write-then-read): for every store state, every key `k` and every
value `v`, immediately after `put(k, v)`, `get(k)` returns exactly `v`. -/
theorem write_then_read (s : BitcaskStore) (k : String) (v : Value) (ts : String) :
    ((s.put k v ts).get k).1 = some v :=
  get_put_fst s k v ts

/-- C3 (Delete visibility): for every store state (its keyDir being a JS
`Map`, with distinct keys) and every key `k`, immediately after
`delete(k)`, `get(k)` returns `null` — the notFound result — whether or
not `k` had a prior value. -/
theorem delete_visibility (s : BitcaskStore) (k : String) (ts : String)
    (h : DistinctKeys s.keyDir) : ((s.delete k ts).get k).1 = some Value.null :=
  get_delete_fst s k ts h

theorem delete_visibility_witness :
    DistinctKeys BitcaskStore.empty.keyDir ∧
    ((BitcaskStore.empty.delete "missing" "t").get "missing").1 = some Value.null :=
  ⟨by decide, delete_visibility BitcaskStore.empty "missing" "t" (by decide)⟩

/-- C4 (Overwrite recency): for every store state, key `k` and values
`v1`, `v2`, after `put(k, v1)` then `put(k, v2)`, `get(k)` returns `v2`. -/
theorem overwrite_recency (s : BitcaskStore) (k : String) (v1 v2 : Value)
    (ts1 ts2 : String) :
    (((s.put k v1 ts1).put k v2 ts2).get k).1 = some v2 :=
  get_put_fst (s.put k v1 ts1) k v2 ts2

/-- C5 (History preservation): every `put` and every `delete` (including a
delete of an absent key) grows the log by exactly one record, and every
record present before the operation is unchanged at its original
position. -/
theorem history_preservation (s : BitcaskStore) (k k2 : String) (v : Value)
    (ts ts2 : String) :
    (s.put k v ts).log.length = s.log.length + 1 ∧
    (s.delete k2 ts2).log.length = s.log.length + 1 ∧
    (∀ i, i < s.log.length → (s.put k v ts).log[i]? = s.log[i]?) ∧
    (∀ i, i < s.log.length → (s.delete k2 ts2).log[i]? = s.log[i]?) := by
  refine ⟨?_, ?_, ?_, ?_⟩
  · rw [put_log_eq]
    simp
  · rw [delete_log_eq]
    simp
  · intro i hi
    rw [put_log_eq, List.getElem?_append_left hi]
  · intro i hi
    rw [delete_log_eq, List.getElem?_append_left hi]

theorem history_preservation_witness :
    (BitcaskStore.empty.put "a" (Value.str "1") "t").log.length = 1 ∧
    0 < (BitcaskStore.empty.put "a" (Value.str "1") "t").log.length ∧
    ((BitcaskStore.empty.put "a" (Value.str "1") "t").put "b" (Value.str "2") "u").log[0]? =
      (BitcaskStore.empty.put "a" (Value.str "1") "t").log[0]? :=
  ⟨by decide, by decide,
    (history_preservation (BitcaskStore.empty.put "a" (Value.str "1") "t")
      "b" "c" (Value.str "2") "u" "w").2.2.1 0 (by decide)⟩

/-- C9 (notFound is null): the notFound result of `get` is the JS value
`null`, not a distinct variant: after `put(k, null)` on any store, `get(k)`
returns `null` even though `k` is live in the index, the same observable
result as `get` on a key that was never written. -/
theorem notFound_is_null (s : BitcaskStore) (k : String) (ts : String) :
    ((s.put k Value.null ts).get k).1 = some Value.null ∧
    mapHas (s.put k Value.null ts).keyDir k = true ∧
    (BitcaskStore.empty.get k).1 = some Value.null := by
  refine ⟨get_put_fst s k Value.null ts, ?_, rfl⟩
  rw [put_keyDir_eq]
  exact mapHas_set_self _ _ _

/-- C10 (get is read-only): `get` leaves the store — its log and its
keyDir — unchanged, whatever the key and whatever the state. -/
theorem get_read_only (s : BitcaskStore) (k : String) : (s.get k).2 = s := by
  unfold BitcaskStore.get
  split
  · rfl
  · split
    · split <;> rfl
    · rfl

/-- C1 (Index-log consistency): in every state reachable from the empty
store by `put`/`delete` operations, the keyDir has an entry for a key `k`
exactly when the most recent log record for `k` exists and is a live
(non-tombstone) write. -/
theorem index_log_consistency (s : BitcaskStore) (h : Reachable s) (k : String) :
    (mapGet s.keyDir k).isSome = true ↔
      (∃ rec, lastRecordFor s.log k = some rec ∧ rec.isTombstone = false) := by
  obtain ⟨hd, hinv⟩ := storeInv_reachable s h
  constructor
  · intro hs
    cases hg : mapGet s.keyDir k with
    | none =>
        rw [hg] at hs
        cases hs
    | some e =>
        obtain ⟨h1, rec, h2, h3, _⟩ := (hinv k).1 e hg
        refine ⟨rec, ?_, h3⟩
        unfold lastRecordFor
        rw [h1]
        simpa using h2
  · rintro ⟨rec, hrec, hlive⟩
    cases hg : mapGet s.keyDir k with
    | some e => rfl
    | none =>
        exfalso
        unfold lastRecordFor at hrec
        cases hi : lastIdxFor s.log k with
        | none =>
            rw [hi] at hrec
            cases hrec
        | some i =>
            rw [hi] at hrec
            have hrec2 : s.log[i]? = some rec := hrec
            have := (hinv k).2 hg i rec hi hrec2
            rw [this] at hlive
            cases hlive

theorem index_log_consistency_witness :
    Reachable (runOps [Op.putOp "a" (Value.str "1") "t"]) ∧
      ((mapGet (runOps [Op.putOp "a" (Value.str "1") "t"]).keyDir "a").isSome = true ↔
        (∃ rec, lastRecordFor (runOps [Op.putOp "a" (Value.str "1") "t"]).log "a" = some rec ∧
          rec.isTombstone = false)) :=
  ⟨⟨[Op.putOp "a" (Value.str "1") "t"], rfl⟩,
    index_log_consistency _ ⟨[Op.putOp "a" (Value.str "1") "t"], rfl⟩ "a"⟩

/-- C6 (Get never desynchronizes from the log): in every reachable state,
an index entry found by `get` has a valid position in the log, the record
there is a live, non-tombstone record for that key, and the positional
read inside `get` cannot fail (the result is never the crash marker). -/
theorem get_never_desync (s : BitcaskStore) (h : Reachable s) (k : String)
    (e : KeyDirEntry) (he : mapGet s.keyDir k = some e) :
    e.valuePos < s.log.length ∧
    (∃ rec, s.log[e.valuePos]? = some rec ∧ rec.isTombstone = false ∧ rec.key = k) ∧
    (s.get k).1 ≠ none := by
  obtain ⟨hd, hinv⟩ := storeInv_reachable s h
  obtain ⟨h1, rec, h2, h3, h4⟩ := (hinv k).1 e he
  have hlt : e.valuePos < s.log.length := lastIdxFor_lt_length _ _ _ h1
  have hh : mapHas s.keyDir k = true :=
    (mapHas_iff_get _ _).2 (by rw [he]; rfl)
  have hr : readAt s.log (e.valuePos : Int) = some rec := by
    unfold readAt
    rw [if_pos (by positivity)]
    simpa using h2
  refine ⟨hlt, ⟨rec, h2, h3, h4⟩, ?_⟩
  simp [BitcaskStore.get, hh, he, hr]

theorem get_never_desync_witness :
    Reachable (runOps [Op.putOp "a" (Value.str "1") "t"]) ∧
    mapGet (runOps [Op.putOp "a" (Value.str "1") "t"]).keyDir "a" =
      some ⟨"active.data", 3, 0, "t"⟩ ∧
    ((⟨"active.data", 3, 0, "t"⟩ : KeyDirEntry).valuePos <
        (runOps [Op.putOp "a" (Value.str "1") "t"]).log.length ∧
      (∃ rec, (runOps [Op.putOp "a" (Value.str "1") "t"]).log[
          (⟨"active.data", 3, 0, "t"⟩ : KeyDirEntry).valuePos]? = some rec ∧
        rec.isTombstone = false ∧ rec.key = "a") ∧
      ((runOps [Op.putOp "a" (Value.str "1") "t"]).get "a").1 ≠ none) :=
  ⟨⟨[Op.putOp "a" (Value.str "1") "t"], rfl⟩, by decide,
    get_never_desync _ ⟨[Op.putOp "a" (Value.str "1") "t"], rfl⟩ "a" _ (by decide)⟩

/-- C7 (readAt range checking): the positional read of the log (the array
access `this.log[pos]` used by `get`) fails exactly when the position is
negative or at least the log length, and a position issued by an append
resolves to the same, unchanged record no matter what is appended later. -/
theorem readAt_range_check :
    (∀ (log : List LogEntry) (pos : Int),
        readAt log pos = none ↔ pos < 0 ∨ (log.length : Int) ≤ pos) ∧
    (∀ (log rest : List LogEntry) (e : LogEntry),
        readAt ((log ++ [e]) ++ rest) (log.length : Int) = some e) := by
  constructor
  · intro log pos
    unfold readAt
    by_cases hp : 0 ≤ pos
    · rw [if_pos hp, List.getElem?_eq_none_iff]
      omega
    · rw [if_neg hp]
      exact ⟨fun _ => Or.inl (by omega), fun _ => rfl⟩
  · intro log rest e
    unfold readAt
    rw [if_pos (by positivity)]
    have hlt : log.length < (log ++ [e]).length := by simp
    rw [Int.toNat_natCast, List.getElem?_append_left hlt]
    simp

/-- C8 counterexample: after `put("a", "1")` on the empty store the log
record stores the one-character value `"1"`, but the index entry's
`valueSize` is 3 — the length of `JSON.stringify("1")` (the quotes are
counted) — so `valueSize` is not the length of the value as stored in the
log record. -/
theorem valueSize_counterexample :
    mapGet (BitcaskStore.empty.put "a" (Value.str "1") "t").keyDir "a" =
      some ⟨"active.data", 3, 0, "t"⟩ ∧
    (BitcaskStore.empty.put "a" (Value.str "1") "t").log[0]? =
      some ⟨"t", "a", Value.str "1", false⟩ ∧
    jsStrLen "1" = 1 ∧ (3 : Nat) ≠ 1 := by
  decide

/-- C8 (amended): immediately after `put(k, v)` the index entry stored for
`k` caches in `valueSize` the length (in UTF-16 code units) of the JSON
serialization `JSON.stringify(v)` of the value — not the length of the
value as stored in the log record. -/
theorem valueSize_serialized (s : BitcaskStore) (k : String) (v : Value)
    (ts : String) :
    mapGet (s.put k v ts).keyDir k =
      some ⟨"active.data", jsStrLen (jsonStringify v), s.log.length, ts⟩ := by
  rw [put_keyDir_eq, mapGet_set_self]

end Bitcask
